import Mathlib

/-!
Verification of the sharp-frame-extractor core against its natural-language
specification.  The Python sources are shallowly embedded: pure functions
become Lean functions over `Nat`/`Int`/`Rat` (double-precision values are
modelled by exact rationals), stateful components become explicit state
types with step functions, and code that raises becomes `Option`/`Except`.
-/

namespace SFE

/-! ## PooledSharedNDArrayStore (memory/shared_ndarray_pool.py)

The pool holds shared-memory segments identified by their OS-level name;
we model names as natural numbers handed out by a fresh-name counter
(`SharedMemory(create=True)` always returns a segment with a new name).
The state mirrors the four pieces of mutable state of the Python class:
`_pool` (free list, LIFO), `_active` (names handed out and not yet
released), the counting semaphore's current value, and the name source.
`put` blocks on `self._semaphore.acquire()`; we model blocking by making
the step function return `none` exactly when the semaphore is exhausted,
so a `none` step means "the caller would block here". -/

structure PoolState where
  pool : List Nat
  active : Finset Nat
  sem : Nat
  next_name : Nat
deriving DecidableEq

/-- Initial state of `PooledSharedNDArrayStore.__init__`: empty free list,
no active segments, semaphore initialised to `n_buffers`. -/
def initPool (n : Nat) : PoolState :=
  { pool := [], active := ∅, sem := n, next_name := 0 }

/-- One `put` call (shared_ndarray_pool.py lines 27-54), at the granularity
of the pool bookkeeping: acquire the semaphore (blocks, i.e. `none`, when
its value is 0), then pop a free segment if one exists, otherwise allocate
a fresh segment, and mark it active.  Returns the new state and the name
of the segment handed out. -/
def putStep (s : PoolState) : Option (PoolState × Nat) :=
  if s.sem = 0 then
    none
  else
    match s.pool with
    | shm :: rest =>
      some ({ pool := rest, active := insert shm s.active,
              sem := s.sem - 1, next_name := s.next_name }, shm)
    | [] =>
      some ({ pool := [], active := insert s.next_name s.active,
              sem := s.sem - 1, next_name := s.next_name + 1 }, s.next_name)

/-- One `release(ref)` call (lines 56-63): only when the referenced name is
currently active, move the segment back to the free list and release the
semaphore; otherwise the call is a no-op. -/
def releaseStep (s : PoolState) (name : Nat) : PoolState :=
  if name ∈ s.active then
    { pool := name :: s.pool, active := s.active.erase name,
      sem := s.sem + 1, next_name := s.next_name }
  else
    s

/-- States reachable from a fresh pool with `n` buffers through any
interleaving of successful `put` and `release` calls. -/
inductive PoolReachable (n : Nat) : PoolState → Prop where
  | init : PoolReachable n (initPool n)
  | put {s s' : PoolState} {r : Nat} :
      PoolReachable n s → putStep s = some (s', r) → PoolReachable n s'
  | rel {s : PoolState} (name : Nat) :
      PoolReachable n s → PoolReachable n (releaseStep s name)

/-- Structural invariant of the pool: the semaphore value always equals
`n_buffers` minus the number of active segments, the free list holds
distinct names disjoint from the active set, and every known name is
below the fresh-name counter. -/
def PoolWF (n : Nat) (s : PoolState) : Prop :=
  s.active.card + s.sem = n ∧
  (∀ x ∈ s.pool, x ∉ s.active) ∧
  s.pool.Nodup ∧
  (∀ x ∈ s.active, x < s.next_name) ∧
  (∀ x ∈ s.pool, x < s.next_name)

/-- Demo state for the witness: the pool with one buffer right after its
first `put`, which hands out the fresh segment named 0. -/
def poolDemoState : PoolState :=
  { pool := [], active := {0}, sem := 0, next_name := 1 }

/-! ## Block-size computation (SharpFrameExtractor.py lines 140-147, 284-296)

`_calculate_block_size` works on Python floats; the values involved are
nonnegative, and the safety factor 0.8 is modelled exactly as `4/5` in
`Rat`, with `int()` truncation of a nonnegative value modelled as the
natural floor.  `_process_extraction_task` then divides the result by the
worker count and caps it at the preferred pipelining granularity 32
(`self._preferred_block_size`). -/

/-- Embedding of `SharpFrameExtractor._calculate_block_size` with its
default `safe_factor = 0.8`. -/
def calculate_block_size (width height channels memory_limit_mb : Nat) : Nat :=
  let frame_size_bytes : ℚ := ((width * height * channels : Nat) : ℚ)
  let memory_limit_bytes : ℚ := ((memory_limit_mb * 1024 * 1024 : Nat) : ℚ)
  let safe_memory_bytes : ℚ := memory_limit_bytes * (4 / 5)
  let count : Nat := ⌊safe_memory_bytes / frame_size_bytes⌋₊
  max 1 count

/-- Embedding of the stream block size computed in
`_process_extraction_task` (lines 140-147): distribute the possible block
size over the workers, keep at least one frame, cap at 32. -/
def effective_stream_block_size
    (width height channels memory_limit_mb max_workers : Nat) : Nat :=
  let possible_block_size := calculate_block_size width height channels memory_limit_mb
  let max_block_size_per_worker := max 1 (possible_block_size / max_workers)
  min 32 max_block_size_per_worker

/-! ## Frame-interval selection (SharpFrameExtractor.py lines 129-138, models.py lines 41-53)

`ExtractionOptions` is a plain dataclass with two optional fields and two
named constructors; nothing in the dataclass prevents constructing it with
both fields set.  `_process_extraction_task` checks
`options.frame_interval_seconds` first, then `options.total_frame_count`,
and raises `ValueError` only when both are `None`.  The check happens
after `ffmpegio.probe` but before any `ffmpegio.open` decode stream is
created.  Python's `round` is banker's rounding (half to even); float
values are modelled as exact rationals. -/

structure ExtractionOptions where
  frame_interval_seconds : Option ℚ := none
  total_frame_count : Option Nat := none
deriving DecidableEq

/-- Named constructor `ExtractionOptions.from_interval`. -/
def ExtractionOptions.from_interval (t : ℚ) : ExtractionOptions :=
  { frame_interval_seconds := some t }

/-- Named constructor `ExtractionOptions.from_count`. -/
def ExtractionOptions.from_count (k : Nat) : ExtractionOptions :=
  { total_frame_count := some k }

/-- Failures of the interval computation: the explicit
`ValueError('Please provide either "--every" or "--count".')` and the
`ZeroDivisionError` Python raises on `total_video_frames / 0`. -/
inductive IntervalFailure where
  | missingMode
  | zeroDivision
deriving DecidableEq

/-- Python's `round` (banker's rounding, half to even) on a rational. -/
def pythonRound (q : ℚ) : ℤ :=
  if q - (⌊q⌋ : ℚ) < 1 / 2 then ⌊q⌋
  else if 1 / 2 < q - (⌊q⌋ : ℚ) then ⌊q⌋ + 1
  else if 2 ∣ ⌊q⌋ then ⌊q⌋ else ⌊q⌋ + 1

/-- Embedding of the frame-interval computation of
`_process_extraction_task` (lines 129-138), branch for branch. -/
def computeFrameInterval (options : ExtractionOptions)
    (video_fps : ℚ) (total_video_frames : Nat) : Except IntervalFailure Nat :=
  match options.frame_interval_seconds with
  | some t => .ok (max 1 (pythonRound (t * video_fps))).toNat
  | none =>
    match options.total_frame_count with
    | some k =>
      if k = 0 then .error .zeroDivision
      else .ok (max 1 ⌈(total_video_frames : ℚ) / (k : ℚ)⌉).toNat
    | none => .error .missingMode

/-! ## Multi-video result ordering (SharpFrameExtractor.py lines 72-99)

`process(tasks)` has two paths.  With `max_video_jobs <= 1` it runs the
tasks in submission order and returns the results in that order, without
sorting.  Otherwise it submits each task to a thread pool, appends
results in completion order (`as_completed`, an arbitrary permutation of
the submission order), and sorts by `task_id` before returning.
`_process_extraction_task` returns `ExtractionResult(task.task_id)`
(line 166); its IO side effects do not influence the returned value, so a
task is modelled by its id. -/

structure ExtractionTask where
  task_id : Nat
deriving DecidableEq

structure ExtractionResult where
  task_id : Nat
deriving DecidableEq

/-- Value computed by `_process_extraction_task` for one task. -/
def processExtractionTaskResult (t : ExtractionTask) : ExtractionResult :=
  { task_id := t.task_id }

/-- Ordering used by `results.sort(key=lambda r: r.task_id)`. -/
def resultLE (a b : ExtractionResult) : Prop := a.task_id ≤ b.task_id

instance : DecidableRel resultLE := fun a b => Nat.decLe a.task_id b.task_id

instance : IsTotal ExtractionResult resultLE := ⟨fun a b => Nat.le_total a.task_id b.task_id⟩

instance : IsTrans ExtractionResult resultLE := ⟨fun _ _ _ => Nat.le_trans⟩

instance : IsAntisymm ExtractionResult resultLE :=
  ⟨fun a b hab hba => by
    cases a; cases b
    simp only [ExtractionResult.mk.injEq]
    exact Nat.le_antisymm hab hba⟩

/-- Sequential path of `process` (lines 76-80): map over the tasks in
submission order, no sort. -/
def processSequential (tasks : List ExtractionTask) : List ExtractionResult :=
  tasks.map processExtractionTaskResult

/-- Parallel path of `process` (lines 83-99): `completed` is the tasks in
the order their futures completed; collect the results in that order,
then sort by task id (Python's stable sort is modelled by the stable
insertion sort). -/
def processParallel (completed : List ExtractionTask) : List ExtractionResult :=
  List.insertionSort resultLE (completed.map processExtractionTaskResult)

/-! ## Analyzer result shape (analyzer/frame_analyzer_base.py lines 15-21,
SharpFrameExtractor.py lines 198-208)

The worker result type `FrameAnalyzerResult` carries the index and pixel
data of a single best frame plus ONE aggregated score per analysed block
(the `TenengradFrameAnalyzer` fills it with the block's argmax frame and
its normalised score).  `_analyze_frames` however concatenates
`r.scores` over the completed results sorted by `block_index` — an
attribute that `FrameAnalyzerResult` does not define, so the interpreter
raises `AttributeError` there; the only per-result score data the type
offers is the single `score` field.  `analyzeConcatScores` embeds the
sort-then-concatenate step over that single field: it yields exactly one
score per block, not one per frame. -/

structure FrameAnalyzerResult (Frame : Type) where
  block_index : Nat
  frame_index : Nat
  frame : Frame
  score : ℚ

/-- Ordering used by `analysis_results.sort(key=lambda e: e.block_index)`. -/
def blockIndexLE {F : Type} (a b : FrameAnalyzerResult F) : Prop :=
  a.block_index ≤ b.block_index

instance {F : Type} : DecidableRel (blockIndexLE (F := F)) :=
  fun a b => Nat.decLe a.block_index b.block_index

/-- Sort the block results by block index and concatenate their score
data (one `score` field per result, the only score data the source's
result type carries). -/
def analyzeConcatScores {F : Type} (results : List (FrameAnalyzerResult F)) : List ℚ :=
  (List.insertionSort blockIndexLE results).map (fun r => r.score)

/-! ## Best-frame-per-interval reduction (SharpFrameExtractor.py lines 298-331)

The source casts the scores to `float32` and scans them once, keeping two
parallel arrays indexed by interval: `best_frame_index` (initialised to
zeros) and `best_score` (initialised to the float `-inf` sentinel); the
running best of an interval is replaced only on strict `>`.  Scores are
modelled as exact rationals; `Rat` has no `-inf`, so the sentinel is
`none`, which every finite score strictly beats, exactly as `-inf` does.
The two parallel arrays are modelled as one list of pairs. -/

/-- One per-interval accumulator cell `(best_frame_index[i], best_score[i])`. -/
abbrev BestCell : Type := Nat × Option ℚ

/-- Initial cell: index 0, score `-inf`. -/
def initCell : BestCell := (0, none)

/-- Body of `if s > best_score[ii]: best_score[ii] = s;
best_frame_index[ii] = frame_index` for one cell. -/
def updCell (c : BestCell) (k : Nat) (s : ℚ) : BestCell :=
  match c.2 with
  | none => (k, some s)
  | some b => if b < s then (k, some s) else c

/-- One iteration of the `for frame_index in range(n)` loop (lines
321-326): locate `ii = frame_index // frame_interval` and update that
interval's cell. -/
def scanStep (frame_interval : Nat) (st : List BestCell) (p : Nat × ℚ) : List BestCell :=
  st.set (p.1 / frame_interval)
    (updCell (st.getD (p.1 / frame_interval) initCell) p.1 p.2)

/-- Number of interval cells: `int(interval_index[-1]) + 1` with
`interval_index[n-1] = (n-1) // frame_interval`; zero when there are no
scores (the early-return branch). -/
def numIntervals (n frame_interval : Nat) : Nat :=
  if n = 0 then 0 else (n - 1) / frame_interval + 1

/-- The two best arrays after the whole scan over the enumerated scores. -/
def scanBest (scores : List ℚ) (frame_interval : Nat) : List BestCell :=
  scores.enum.foldl (scanStep frame_interval)
    (List.replicate (numIntervals scores.length frame_interval) initCell)

/-- Ordering of output triples realising
`np.argsort(best_frame_index, kind="stable")`: compare frame indices. -/
def tripleKeyLE (a b : Nat × Nat × ℚ) : Prop := a.2.1 ≤ b.2.1

instance : DecidableRel tripleKeyLE := fun a b => Nat.decLe a.2.1 b.2.1

/-- Embedding of `_select_best_frames_per_interval` past its guard: the
`(interval_index, frame_index, score)` triples in the order produced by
indexing the three arrays with the stable argsort of `best_frame_index`
(equivalently, the zipped triples stably sorted by frame index).  A
surviving `-inf` sentinel reads as score 0; the theorems show every
interval contains a frame, so the sentinel never survives. -/
def selectCore (scores : List ℚ) (frame_interval : Nat) : List (Nat × Nat × ℚ) :=
  if scores.length = 0 then []
  else
    let num := numIntervals scores.length frame_interval
    let cells := scanBest scores frame_interval
    let pre := (List.range num).map
      (fun i => (i, (cells.getD i initCell).1, ((cells.getD i initCell).2).getD 0))
    List.insertionSort tripleKeyLE pre

/-- Embedding of `_select_best_frames_per_interval` including the
`frame_interval <= 0` `ValueError` guard. -/
def selectBestFramesPerInterval (scores : List ℚ) (frame_interval : Nat) :
    Option (List (Nat × Nat × ℚ)) :=
  if frame_interval = 0 then none else some (selectCore scores frame_interval)

/-- Fold of `updCell` over the frames of one chunk, in frame order. -/
def chunkFold (c : BestCell) (ps : List (Nat × ℚ)) : BestCell :=
  ps.foldl (fun c p => updCell c p.1 p.2) c

/-- Running-best step once the sentinel is gone: strict `>` replacement. -/
def bestStep (b p : Nat × ℚ) : Nat × ℚ := if b.2 < p.2 then p else b

/-- Running best over a chunk, seeded with its first frame. -/
def bestPair (b : Nat × ℚ) (ps : List (Nat × ℚ)) : Nat × ℚ := ps.foldl bestStep b

/-- The `(frame_index, score)` pairs of interval `i`: global frame
indices `i*fi <= k < min((i+1)*fi, n)` with their scores. -/
def chunkPairs (scores : List ℚ) (fi i : Nat) : List (Nat × ℚ) :=
  (List.range' (i * fi) (min ((i + 1) * fi) scores.length - i * fi)).map
    (fun k => (k, scores.getD k 0))

/-! ## RollingBuffer (memory/rolling_buffer.py)

The buffer stores samples of an arbitrary element type; `np.zeros` is
modelled by `default`.  The physical array is a list of fixed length
`capacity`; slice assignments become take/drop surgery on that list.
`append(None)` cannot be expressed (chunks are plain lists) and the
dtype cast is the identity here.  Negative/None slice arguments are kept
(`Option Int`), clamped exactly as lines 170-182 do. -/

structure RollingBuffer (α : Type) where
  capacity : Nat
  buffer : List α
  write_position : Nat
  is_buffer_full : Bool
  total_samples_written : Nat
deriving DecidableEq

/-- State built by `__init__` once the `capacity <= 0` guard has passed. -/
def RollingBuffer.fresh (α : Type) [Inhabited α] (capacity : Nat) : RollingBuffer α :=
  { capacity := capacity, buffer := List.replicate capacity default,
    write_position := 0, is_buffer_full := false, total_samples_written := 0 }

/-- Embedding of `__init__` including the `capacity <= 0` `ValueError`. -/
def RollingBuffer.new (α : Type) [Inhabited α] (capacity : Nat) :
    Option (RollingBuffer α) :=
  if capacity = 0 then none else some (RollingBuffer.fresh α capacity)

/-- Embedding of `append` (lines 112-144).  The three branches: empty
chunk — no-op; chunk at least as large as the capacity — hard reset to
the chunk's last `capacity` samples; otherwise write at the cursor,
wrapping; then advance the cursor mod capacity, update the full flag and
the monotone total. -/
def RollingBuffer.append {α : Type} (st : RollingBuffer α) (chunk : List α) :
    RollingBuffer α :=
  if chunk.length = 0 then st
  else if st.capacity ≤ chunk.length then
    { st with
      buffer := chunk.drop (chunk.length - st.capacity),
      write_position := 0, is_buffer_full := true,
      total_samples_written := st.total_samples_written + chunk.length }
  else
    { st with
      buffer :=
        if st.write_position + chunk.length ≤ st.capacity then
          st.buffer.take st.write_position ++ chunk ++
            st.buffer.drop (st.write_position + chunk.length)
        else
          chunk.drop (st.capacity - st.write_position) ++
            (st.buffer.take st.write_position).drop
              (st.write_position + chunk.length - st.capacity) ++
            chunk.take (st.capacity - st.write_position),
      write_position := (st.write_position + chunk.length) % st.capacity,
      is_buffer_full :=
        st.is_buffer_full || decide (st.capacity ≤ st.write_position + chunk.length),
      total_samples_written := st.total_samples_written + chunk.length }

/-- Embedding of `__len__` (line 277-278). -/
def RollingBuffer.size {α : Type} (st : RollingBuffer α) : Nat :=
  if st.is_buffer_full then st.capacity else st.write_position

/-- Embedding of `clear` (lines 146-153). -/
def RollingBuffer.clear {α : Type} (st : RollingBuffer α) : RollingBuffer α :=
  { st with write_position := 0, is_buffer_full := false, total_samples_written := 0 }

/-- Python index normalisation of `slice` (lines 170-178): shift a
negative index by `total`, clamp into `[0, total]`. -/
def pyClampIndex (idx : Int) (total : Nat) : Nat :=
  (max 0 (min (if idx < 0 then idx + total else idx) (total : Int))).toNat

/-- Embedding of `slice` (lines 155-198); `none` means the Python `None`
argument.  Copy and view variants return the same sample sequence, so
`copy` is dropped. -/
def RollingBuffer.slice {α : Type} (st : RollingBuffer α)
    (start? stop? : Option Int) : List α :=
  if st.size = 0 then []
  else if pyClampIndex (stop?.getD (st.size : Int)) st.size ≤
      pyClampIndex (start?.getD 0) st.size then []
  else if st.is_buffer_full = false then
    (st.buffer.take (pyClampIndex (stop?.getD (st.size : Int)) st.size)).drop
      (pyClampIndex (start?.getD 0) st.size)
  else if pyClampIndex (stop?.getD (st.size : Int)) st.size -
      pyClampIndex (start?.getD 0) st.size ≤
      st.capacity -
        (st.write_position + pyClampIndex (start?.getD 0) st.size) % st.capacity then
    (st.buffer.drop
        ((st.write_position + pyClampIndex (start?.getD 0) st.size) % st.capacity)).take
      (pyClampIndex (stop?.getD (st.size : Int)) st.size -
        pyClampIndex (start?.getD 0) st.size)
  else
    st.buffer.drop
        ((st.write_position + pyClampIndex (start?.getD 0) st.size) % st.capacity) ++
      st.buffer.take (pyClampIndex (stop?.getD (st.size : Int)) st.size -
        pyClampIndex (start?.getD 0) st.size -
        (st.capacity -
          (st.write_position + pyClampIndex (start?.getD 0) st.size) % st.capacity))

/-- Embedding of `get_last_samples` (lines 200-215); the `n < 0`
`ValueError` cannot fire for a natural `n`. -/
def RollingBuffer.get_last_samples {α : Type} (st : RollingBuffer α)
    (n? : Option Nat) : List α :=
  match n? with
  | none => st.slice (some 0) none
  | some n =>
    st.slice (some ((st.size - min n st.size : Nat) : Int)) (some (st.size : Int))

/-- The last `n` elements of a list (specification-side helper). -/
def lastN {α : Type} (n : Nat) (l : List α) : List α := l.drop (l.length - n)

/-- Chronological contents of the ring: oldest to newest retained sample. -/
def RollingBuffer.contents {α : Type} (st : RollingBuffer α) : List α :=
  if st.is_buffer_full then
    st.buffer.drop st.write_position ++ st.buffer.take st.write_position
  else
    st.buffer.take st.write_position

/-- Structural well-formedness maintained by the implementation. -/
def RollingBuffer.WF {α : Type} (st : RollingBuffer α) : Prop :=
  st.buffer.length = st.capacity ∧ st.write_position < st.capacity ∧ 0 < st.capacity

/-- Demo state for C6: a capacity-2 buffer after appending `[10]` then
`[11]` — full, with neither sample drained. -/
def rbDemo : RollingBuffer Nat :=
  RollingBuffer.append (RollingBuffer.append (RollingBuffer.fresh Nat 2) [10]) [11]

/-! ## Lemmas and theorems -/

lemma poolWF_init (n : Nat) : PoolWF n (initPool n) := by
  refine ⟨by simp [initPool], ?_, ?_, ?_, ?_⟩ <;> simp [initPool]

lemma poolWF_put {n : Nat} {s s' : PoolState} {r : Nat}
    (hwf : PoolWF n s) (hstep : putStep s = some (s', r)) : PoolWF n s' := by
  obtain ⟨hcard, hdisj, hnodup, hab, hpb⟩ := hwf
  unfold putStep at hstep
  by_cases hsem : s.sem = 0
  · simp [hsem] at hstep
  rw [if_neg hsem] at hstep
  cases hpool : s.pool with
  | cons shm rest =>
    rw [hpool] at hstep
    simp only [Option.some.injEq, Prod.mk.injEq] at hstep
    obtain ⟨hs', _⟩ := hstep
    subst hs'
    have hshm_mem : shm ∈ s.pool := by rw [hpool]; exact List.mem_cons_self _ _
    have hshm_notin : shm ∉ s.active := hdisj shm hshm_mem
    have hnd : (shm :: rest).Nodup := by rw [← hpool]; exact hnodup
    refine ⟨?_, ?_, ?_, ?_, ?_⟩
    · simp only [Finset.card_insert_of_not_mem hshm_notin]
      omega
    · intro x hx
      have hx' : x ∈ s.pool := by rw [hpool]; exact List.mem_cons_of_mem _ hx
      have hxs : x ∉ s.active := hdisj x hx'
      have hne : x ≠ shm := by
        intro hiff; subst hiff
        exact (List.nodup_cons.mp hnd).1 hx
      simp [Finset.mem_insert, hne, hxs]
    · exact (List.nodup_cons.mp hnd).2
    · intro x hx
      rcases Finset.mem_insert.mp hx with h | h
      · rw [h]; exact hpb shm hshm_mem
      · exact hab x h
    · intro x hx
      exact hpb x (by rw [hpool]; exact List.mem_cons_of_mem _ hx)
  | nil =>
    rw [hpool] at hstep
    simp only [Option.some.injEq, Prod.mk.injEq] at hstep
    obtain ⟨hs', _⟩ := hstep
    subst hs'
    have hfresh : s.next_name ∉ s.active := by
      intro hmem
      exact absurd (hab _ hmem) (lt_irrefl _)
    refine ⟨?_, ?_, ?_, ?_, ?_⟩
    · simp only [Finset.card_insert_of_not_mem hfresh]
      omega
    · intro x hx; simp at hx
    · simp
    · intro x hx
      rcases Finset.mem_insert.mp hx with h | h
      · rw [h]; exact Nat.lt_succ_self _
      · exact Nat.lt_succ_of_lt (hab x h)
    · intro x hx; simp at hx

lemma poolWF_rel {n : Nat} {s : PoolState} (name : Nat)
    (hwf : PoolWF n s) : PoolWF n (releaseStep s name) := by
  obtain ⟨hcard, hdisj, hnodup, hab, hpb⟩ := hwf
  unfold releaseStep
  by_cases hmem : name ∈ s.active
  · rw [if_pos hmem]
    have hcard_pos : 0 < s.active.card := Finset.card_pos.mpr ⟨name, hmem⟩
    refine ⟨?_, ?_, ?_, ?_, ?_⟩
    · simp only [Finset.card_erase_of_mem hmem]
      omega
    · intro x hx
      rcases List.mem_cons.mp hx with h | h
      · subst h; exact Finset.not_mem_erase _ _
      · intro hxe
        exact hdisj x h (Finset.mem_of_mem_erase hxe)
    · refine List.nodup_cons.mpr ⟨?_, hnodup⟩
      intro hin
      exact hdisj name hin hmem
    · intro x hx
      exact hab x (Finset.mem_of_mem_erase hx)
    · intro x hx
      rcases List.mem_cons.mp hx with h | h
      · rw [h]; exact hab name hmem
      · exact hpb x h
  · rw [if_neg hmem]
    exact ⟨hcard, hdisj, hnodup, hab, hpb⟩

lemma poolReachable_wf {n : Nat} {s : PoolState}
    (h : PoolReachable n s) : PoolWF n s := by
  induction h with
  | init => exact poolWF_init n
  | put _ hstep ih => exact poolWF_put ih hstep
  | rel name _ ih => exact poolWF_rel name ih

/-- C7: in every reachable state of a pool built with `n_buffers = n`, at
most `n` segments are active; `put` blocks (the step is `none`) exactly
when all `n` segments are active; and on a state where some segment is
active, a `release` of it followed by `put` succeeds, handing out a
recycled or freshly allocated segment. -/
theorem pool_active_bounded_and_put_blocks {n : Nat} {s : PoolState}
    (h : PoolReachable n s) :
    s.active.card ≤ n ∧
    (putStep s = none ↔ s.active.card = n) ∧
    (∀ name ∈ s.active, ∃ s2 r, putStep (releaseStep s name) = some (s2, r)) := by
  obtain ⟨hcard, hdisj, hnodup, hab, hpb⟩ := poolReachable_wf h
  refine ⟨by omega, ?_, ?_⟩
  · constructor
    · intro hnone
      unfold putStep at hnone
      by_cases hsem : s.sem = 0
      · omega
      rw [if_neg hsem] at hnone
      cases hpool : s.pool with
      | cons shm rest => rw [hpool] at hnone; simp at hnone
      | nil => rw [hpool] at hnone; simp at hnone
    · intro hfull
      have hsem : s.sem = 0 := by omega
      unfold putStep
      rw [if_pos hsem]
  · intro name hname
    have hsem' : (releaseStep s name).sem = s.sem + 1 := by
      unfold releaseStep
      rw [if_pos hname]
    unfold putStep
    rw [if_neg (by omega)]
    cases hpool : (releaseStep s name).pool with
    | cons shm rest => exact ⟨_, _, rfl⟩
    | nil => exact ⟨_, _, rfl⟩

/-- Witness for C7: the demo state is reachable (one `put` from a fresh
one-buffer pool) and the theorem's conclusions hold there. -/
theorem pool_active_bounded_and_put_blocks_witness :
    PoolReachable 1 poolDemoState ∧
    (poolDemoState.active.card ≤ 1 ∧
      (putStep poolDemoState = none ↔ poolDemoState.active.card = 1) ∧
      (∀ name ∈ poolDemoState.active,
        ∃ s2 r, putStep (releaseStep poolDemoState name) = some (s2, r))) := by
  have hreach : PoolReachable 1 poolDemoState :=
    PoolReachable.put (r := 0) PoolReachable.init (by decide)
  exact ⟨hreach, pool_active_bounded_and_put_blocks hreach⟩

/-- C10: `release` is idempotent.  Releasing the same reference twice is
the same as releasing it once (the second call finds the name no longer
active and does nothing), and releasing a reference whose name is not
active leaves the whole state, including the semaphore, unchanged. -/
theorem pool_release_idempotent (s : PoolState) (name : Nat) :
    releaseStep (releaseStep s name) name = releaseStep s name ∧
    (name ∉ s.active → releaseStep s name = s) := by
  constructor
  · by_cases hmem : name ∈ s.active
    · have h1 : releaseStep s name =
          { pool := name :: s.pool, active := s.active.erase name,
            sem := s.sem + 1, next_name := s.next_name } := by
        unfold releaseStep; rw [if_pos hmem]
      rw [h1]
      unfold releaseStep
      rw [if_neg (by simp [Finset.not_mem_erase])]
    · have h1 : releaseStep s name = s := by
        unfold releaseStep; rw [if_neg hmem]
      rw [h1, h1]
  · intro hmem
    unfold releaseStep
    rw [if_neg hmem]

/-- Witness for C10 at a concrete state: name 5 is not active, a release
of it is a no-op, and double release equals single release. -/
theorem pool_release_idempotent_witness :
    (5 ∉ (⟨[], ∅, 1, 6⟩ : PoolState).active) ∧
    releaseStep (⟨[], ∅, 1, 6⟩ : PoolState) 5 = (⟨[], ∅, 1, 6⟩ : PoolState) ∧
    releaseStep (releaseStep (⟨[], ∅, 1, 6⟩ : PoolState) 5) 5 =
      releaseStep (⟨[], ∅, 1, 6⟩ : PoolState) 5 := by
  refine ⟨by decide, ?_, ?_⟩
  · exact (pool_release_idempotent (⟨[], ∅, 1, 6⟩ : PoolState) 5).2 (by decide)
  · exact (pool_release_idempotent (⟨[], ∅, 1, 6⟩ : PoolState) 5).1

lemma calculate_block_size_closed_form
    (width height channels memory_limit_mb : Nat) :
    calculate_block_size width height channels memory_limit_mb =
      max 1 ((memory_limit_mb * 1024 * 1024 * 4) / (5 * (width * height * channels))) := by
  have hcast :
      ((memory_limit_mb * 1024 * 1024 : Nat) : ℚ) * (4 / 5) /
          ((width * height * channels : Nat) : ℚ) =
        ((memory_limit_mb * 1024 * 1024 * 4 : Nat) : ℚ) /
          ((5 * (width * height * channels) : Nat) : ℚ) := by
    push_cast
    rw [← mul_div_assoc, div_div]
  show max 1 ⌊((memory_limit_mb * 1024 * 1024 : Nat) : ℚ) * (4 / 5) /
      ((width * height * channels : Nat) : ℚ)⌋₊ = _
  rw [hcast, Nat.floor_div_nat, Nat.floor_natCast]

/-- C8: the effective stream block size equals
`min(32, max(1, max_frames_in_budget // W))` with
`max_frames_in_budget = max(1, floor(M * 1024 * 1024 * 0.8 / (w*h*c)))`,
and it always lies between 1 and 32. -/
theorem stream_block_size_formula_and_bounds
    (width height channels memory_limit_mb max_workers : Nat)
    (hpix : 0 < width * height * channels) (hW : 1 ≤ max_workers) :
    effective_stream_block_size width height channels memory_limit_mb max_workers =
      min 32 (max 1
        ((max 1 ((memory_limit_mb * 1024 * 1024 * 4) / (5 * (width * height * channels)))) /
          max_workers)) ∧
    1 ≤ effective_stream_block_size width height channels memory_limit_mb max_workers ∧
    effective_stream_block_size width height channels memory_limit_mb max_workers ≤ 32 := by
  have hform :
      effective_stream_block_size width height channels memory_limit_mb max_workers =
        min 32 (max 1
          ((max 1 ((memory_limit_mb * 1024 * 1024 * 4) / (5 * (width * height * channels)))) /
            max_workers)) := by
    unfold effective_stream_block_size
    rw [calculate_block_size_closed_form]
  refine ⟨hform, ?_, ?_⟩
  · rw [hform]
    have h1 : 1 ≤ max 1
        ((max 1 ((memory_limit_mb * 1024 * 1024 * 4) / (5 * (width * height * channels)))) /
          max_workers) := le_max_left _ _
    omega
  · rw [hform]
    exact min_le_left _ _

/-- Witness for C8 at a 1920x1080 RGB stream with a 512 MB budget and 4
workers: the block size evaluates inside the stated formula and bounds. -/
theorem stream_block_size_formula_and_bounds_witness :
    0 < 1920 * 1080 * 3 ∧ 1 ≤ 4 ∧
    (effective_stream_block_size 1920 1080 3 512 4 =
        min 32 (max 1 ((max 1 ((512 * 1024 * 1024 * 4) / (5 * (1920 * 1080 * 3)))) / 4)) ∧
      1 ≤ effective_stream_block_size 1920 1080 3 512 4 ∧
      effective_stream_block_size 1920 1080 3 512 4 ≤ 32) := by
  refine ⟨by norm_num, by norm_num, ?_⟩
  exact stream_block_size_formula_and_bounds 1920 1080 3 512 4 (by norm_num) (by norm_num)

/-- Counterexample for C5: an `ExtractionOptions` with BOTH
`frame_interval_seconds` and `total_frame_count` set does not raise any
configuration error — the seconds branch silently wins and the call
succeeds with interval `round(1 * 30) = 30`. -/
theorem both_options_set_does_not_raise :
    computeFrameInterval
      { frame_interval_seconds := some 1, total_frame_count := some 10 } 30 100 =
      Except.ok 30 := by
  have h1 : ((1 : ℚ) * 30) = ((30 : ℤ) : ℚ) := by norm_num
  have hround : pythonRound ((1 : ℚ) * 30) = 30 := by
    unfold pythonRound
    rw [h1, Int.floor_intCast]
    norm_num
  unfold computeFrameInterval
  show Except.ok (max 1 (pythonRound ((1 : ℚ) * 30))).toNat = Except.ok 30
  rw [hround]
  norm_num
  rfl

/-- C5 (amended): a task with neither sampling option raises the
configuration error (before any decode stream is opened); a task with
`frame_interval_seconds` set never raises, even when `total_frame_count`
is also set (the seconds branch takes precedence); a task with only
`total_frame_count` set never raises the configuration error. -/
theorem frame_interval_configuration_errors (o : ExtractionOptions)
    (fps : ℚ) (total : Nat) :
    (o.frame_interval_seconds = none → o.total_frame_count = none →
      computeFrameInterval o fps total = .error .missingMode) ∧
    (∀ t, o.frame_interval_seconds = some t →
      computeFrameInterval o fps total = .ok (max 1 (pythonRound (t * fps))).toNat) ∧
    (∀ k, o.frame_interval_seconds = none → o.total_frame_count = some k →
      computeFrameInterval o fps total ≠ .error .missingMode) := by
  refine ⟨?_, ?_, ?_⟩
  · intro h1 h2
    unfold computeFrameInterval
    rw [h1, h2]
  · intro t ht
    unfold computeFrameInterval
    rw [ht]
  · intro k h1 h2
    unfold computeFrameInterval
    rw [h1, h2]
    show (if k = 0 then Except.error IntervalFailure.zeroDivision
        else Except.ok (max 1 ⌈(total : ℚ) / (k : ℚ)⌉).toNat) ≠
      Except.error IntervalFailure.missingMode
    by_cases hk : k = 0
    · rw [if_pos hk]
      intro hcontra
      exact absurd (Except.error.inj hcontra) (by decide)
    · rw [if_neg hk]
      intro hcontra
      exact Except.noConfusion hcontra

/-- Witness for C5 (amended) on `from_count 7`: only the count option is
set and the configuration error is not raised. -/
theorem frame_interval_configuration_errors_witness :
    (ExtractionOptions.from_count 7).frame_interval_seconds = none ∧
    (ExtractionOptions.from_count 7).total_frame_count = some 7 ∧
    computeFrameInterval (ExtractionOptions.from_count 7) 30 100 ≠
      .error .missingMode := by
  refine ⟨rfl, rfl, ?_⟩
  exact (frame_interval_configuration_errors
    (ExtractionOptions.from_count 7) 30 100).2.2 7 rfl rfl

/-- Counterexample for C4: on the sequential path, tasks submitted as
ids [2, 1] come back as [2, 1] — one result per task, but NOT sorted by
task_id ascending. -/
theorem process_sequential_output_not_sorted :
    processSequential [⟨2⟩, ⟨1⟩] = [⟨2⟩, ⟨1⟩] ∧
    ¬ List.Sorted resultLE (processSequential [⟨2⟩, ⟨1⟩]) := by
  constructor
  · rfl
  · intro h
    have h21 : resultLE ⟨2⟩ ⟨1⟩ := List.rel_of_sorted_cons h _ (List.mem_singleton.mpr rfl)
    exact absurd h21 (by decide)

/-- C4 (amended): both paths return exactly one result per submitted
task, with the submitting task's id.  The parallel path returns them
sorted by task_id ascending, independently of the completion order; the
sequential path returns them in submission order and therefore sorted
only when the submission order already is. -/
theorem process_results_per_task_and_ordering
    (tasks completed : List ExtractionTask) (hperm : completed.Perm tasks) :
    processSequential tasks = tasks.map processExtractionTaskResult ∧
    (processParallel completed).Perm (tasks.map processExtractionTaskResult) ∧
    List.Sorted resultLE (processParallel completed) ∧
    (∀ completed2 : List ExtractionTask, completed2.Perm tasks →
      processParallel completed2 = processParallel completed) := by
  refine ⟨rfl, ?_, ?_, ?_⟩
  · exact (List.perm_insertionSort resultLE _).trans
      (hperm.map processExtractionTaskResult)
  · exact List.sorted_insertionSort resultLE _
  · intro completed2 hperm2
    have hp : (processParallel completed2).Perm (processParallel completed) := by
      refine ((List.perm_insertionSort resultLE _).trans ?_).trans
        (List.perm_insertionSort resultLE _).symm
      exact (hperm2.map processExtractionTaskResult).trans
        (hperm.map processExtractionTaskResult).symm
    exact List.eq_of_perm_of_sorted hp
      (List.sorted_insertionSort resultLE _)
      (List.sorted_insertionSort resultLE _)

/-- Witness for C4 (amended): two tasks with ids 2 and 1, completing in
the order [1, 2], instantiate the theorem; the spec scenario of §8. -/
theorem process_results_per_task_and_ordering_witness :
    ([⟨1⟩, ⟨2⟩] : List ExtractionTask).Perm [⟨2⟩, ⟨1⟩] ∧
    (processSequential [⟨2⟩, ⟨1⟩] =
        ([⟨2⟩, ⟨1⟩] : List ExtractionTask).map processExtractionTaskResult ∧
      (processParallel [⟨1⟩, ⟨2⟩]).Perm
        (([⟨2⟩, ⟨1⟩] : List ExtractionTask).map processExtractionTaskResult) ∧
      List.Sorted resultLE (processParallel [⟨1⟩, ⟨2⟩]) ∧
      (∀ completed2 : List ExtractionTask, completed2.Perm [⟨2⟩, ⟨1⟩] →
        processParallel completed2 = processParallel [⟨1⟩, ⟨2⟩])) := by
  have hperm : ([⟨1⟩, ⟨2⟩] : List ExtractionTask).Perm [⟨2⟩, ⟨1⟩] :=
    List.Perm.swap _ _ _
  exact ⟨hperm, process_results_per_task_and_ordering [⟨2⟩, ⟨1⟩] [⟨1⟩, ⟨2⟩] hperm⟩

/-- C1 fails on the code: the per-block results carry one score each, so
the concatenated record sequence has one entry per block — at the
concrete failing input of 2 analysed blocks covering 3 decoded frames
each (6 decoded frames), only 2 score records exist, so the record set
cannot be contiguous and gapless over frames 0..5. -/
theorem analyzer_scores_per_block_not_per_frame :
    (∀ (F : Type) (results : List (FrameAnalyzerResult F)),
      (analyzeConcatScores results).length = results.length) ∧
    (analyzeConcatScores
        [⟨0, 0, (), 1⟩, ⟨1, 4, (), 2⟩] : List ℚ).length = 2 ∧
    2 ≠ 2 * 3 := by
  have hlen : ∀ (F : Type) (results : List (FrameAnalyzerResult F)),
      (analyzeConcatScores results).length = results.length := by
    intro F results
    unfold analyzeConcatScores
    rw [List.length_map, List.length_insertionSort]
  exact ⟨hlen, by rw [hlen]; rfl, by decide⟩

lemma getD_set_self {α : Type} (l : List α) {i : Nat} (h : i < l.length) (a d : α) :
    (l.set i a).getD i d = a := by
  rw [List.getD_eq_getElem?_getD, List.getElem?_set_self h]
  rfl

lemma getD_set_ne {α : Type} (l : List α) {i j : Nat} (h : i ≠ j) (a d : α) :
    (l.set i a).getD j d = l.getD j d := by
  rw [List.getD_eq_getElem?_getD, List.getD_eq_getElem?_getD, List.getElem?_set_ne h]

lemma getD_replicate {α : Type} {m i : Nat} (h : i < m) (c d : α) :
    (List.replicate m c).getD i d = c := by
  rw [List.getD_eq_getElem?_getD, List.getElem?_replicate_of_lt h]
  rfl

lemma getD_map_range {β : Type} (f : Nat → β) {num i : Nat} (h : i < num) (d : β) :
    ((List.range num).map f).getD i d = f i := by
  rw [List.getD_eq_getElem?_getD, List.getElem?_map, List.getElem?_range h]
  rfl

/-- Scanning a pair list updates each interval's cell exactly by the
fold of the pairs that map to that interval, in order. -/
lemma foldl_scanStep_getD (fi : Nat) (L : List (Nat × ℚ)) :
    ∀ (st : List BestCell) (i : Nat), i < st.length →
      (L.foldl (scanStep fi) st).getD i initCell =
        chunkFold (st.getD i initCell) (L.filter (fun p => p.1 / fi == i)) := by
  induction L with
  | nil => intro st i _; rfl
  | cons p L ih =>
    intro st i hi
    have hlen : (scanStep fi st p).length = st.length := List.length_set st _ _
    rw [List.foldl_cons, List.filter_cons, ih _ i (by rw [hlen]; exact hi)]
    by_cases hii : p.1 / fi = i
    · have hbeq : (p.1 / fi == i) = true := beq_iff_eq.mpr hii
      rw [if_pos hbeq]
      have hcell : (scanStep fi st p).getD i initCell =
          updCell (st.getD i initCell) p.1 p.2 := by
        unfold scanStep
        rw [hii]
        exact getD_set_self st (hii ▸ hi) _ _
      rw [hcell]
      rfl
    · have hbeq : (p.1 / fi == i) = false := beq_eq_false_iff_ne.mpr hii
      rw [if_neg (by rw [hbeq]; exact Bool.false_ne_true)]
      have hcell : (scanStep fi st p).getD i initCell = st.getD i initCell := by
        unfold scanStep
        exact getD_set_ne st hii _ _
      rw [hcell]

lemma scanBest_getD (scores : List ℚ) (fi : Nat) (i : Nat)
    (hi : i < numIntervals scores.length fi) :
    (scanBest scores fi).getD i initCell =
      chunkFold initCell (scores.enum.filter (fun p => p.1 / fi == i)) := by
  unfold scanBest
  rw [foldl_scanStep_getD fi _ _ i (by rw [List.length_replicate]; exact hi),
    getD_replicate hi]

lemma enum_eq_map_range (l : List ℚ) :
    l.enum = (List.range l.length).map (fun k => (k, l.getD k 0)) := by
  apply List.ext_getElem
  · rw [List.enum_length, List.length_map, List.length_range]
  · intro i h1 h2
    have hi : i < l.length := by rw [List.enum_length] at h1; exact h1
    rw [List.getElem_enum, List.getElem_map, List.getElem_range,
      List.getD_eq_getElem?_getD, List.getElem?_eq_getElem hi]
    rfl

/-- Splitting `range n` by the interval index: the frames of interval
`i` are exactly `range' (i*fi) (min ((i+1)*fi) n - i*fi)`. -/
lemma div_eq_iff_mem_chunk {k fi i : Nat} (hfi : 0 < fi) :
    k / fi = i ↔ i * fi ≤ k ∧ k < (i + 1) * fi := by
  constructor
  · intro h
    subst h
    refine ⟨Nat.div_mul_le_self k fi, ?_⟩
    have hmod := Nat.div_add_mod k fi
    have hlt := Nat.mod_lt k hfi
    calc k = fi * (k / fi) + k % fi := hmod.symm
      _ < fi * (k / fi) + fi := Nat.add_lt_add_left hlt _
      _ = (k / fi + 1) * fi := by ring
  · rintro ⟨h1, h2⟩
    exact Nat.div_eq_of_lt_le h1 h2

lemma range_filter_div_eq (n fi i : Nat) (hfi : 0 < fi) :
    (List.range n).filter (fun k => k / fi == i) =
      List.range' (i * fi) (min ((i + 1) * fi) n - i * fi) := by
  have hab : (i + 1) * fi = i * fi + fi := by ring
  induction n with
  | zero => simp
  | succ n ih =>
    rw [List.range_succ, List.filter_append, ih]
    by_cases h1 : n < i * fi
    · have hne : (n / fi == i) = false := by
        refine beq_eq_false_iff_ne.mpr ?_
        intro hc
        have := (div_eq_iff_mem_chunk hfi).mp hc
        omega
      have hfil : List.filter (fun k => k / fi == i) [n] = [] := by
        simp [hne]
      have hmin1 : min ((i + 1) * fi) (n + 1) - i * fi = 0 := by omega
      have hmin0 : min ((i + 1) * fi) n - i * fi = 0 := by omega
      rw [hfil, hmin0, hmin1, List.append_nil]
    · by_cases h2 : n < (i + 1) * fi
      · have heq : (n / fi == i) = true :=
          beq_iff_eq.mpr ((div_eq_iff_mem_chunk hfi).mpr ⟨by omega, h2⟩)
        have hfil : List.filter (fun k => k / fi == i) [n] = [n] := by
          simp [heq]
        have hlen1 : min ((i + 1) * fi) (n + 1) - i * fi = (n - i * fi) + 1 := by
          omega
        have hlen0 : min ((i + 1) * fi) n - i * fi = n - i * fi := by omega
        rw [hfil, hlen0, hlen1, List.range'_1_concat]
        congr 2
        omega
      · have hne : (n / fi == i) = false := by
          refine beq_eq_false_iff_ne.mpr ?_
          intro hc
          have := (div_eq_iff_mem_chunk hfi).mp hc
          omega
        have hfil : List.filter (fun k => k / fi == i) [n] = [] := by
          simp [hne]
        have hmin : min ((i + 1) * fi) (n + 1) = min ((i + 1) * fi) n := by omega
        rw [hfil, hmin, List.append_nil]

lemma enum_filter_eq_chunk (scores : List ℚ) (fi i : Nat) (hfi : 0 < fi) :
    scores.enum.filter (fun p => p.1 / fi == i) = chunkPairs scores fi i := by
  have hcomp : ((fun p : Nat × ℚ => p.1 / fi == i) ∘
      (fun k => (k, scores.getD k 0))) = (fun k => k / fi == i) := rfl
  unfold chunkPairs
  rw [enum_eq_map_range, List.filter_map, hcomp,
    range_filter_div_eq scores.length fi i hfi]

lemma chunkFold_some (ps : List (Nat × ℚ)) :
    ∀ b : Nat × ℚ, chunkFold (b.1, some b.2) ps =
      ((bestPair b ps).1, some (bestPair b ps).2) := by
  induction ps with
  | nil => intro b; rfl
  | cons p ps ih =>
    intro b
    have hstep : updCell (b.1, some b.2) p.1 p.2 =
        ((bestStep b p).1, some (bestStep b p).2) := by
      show (if b.2 < p.2 then ((p.1, some p.2) : BestCell) else (b.1, some b.2)) = _
      unfold bestStep
      by_cases h : b.2 < p.2
      · rw [if_pos h, if_pos h]
      · rw [if_neg h, if_neg h]
    show chunkFold (updCell (b.1, some b.2) p.1 p.2) ps = _
    rw [hstep, ih (bestStep b p)]
    rfl

/-- First-maximum property of the running best: over a chunk whose frame
indices strictly increase, the fold yields an element of the chunk whose
score dominates the chunk and whose index is least among the tied. -/
lemma bestPair_spec (ps : List (Nat × ℚ)) :
    ∀ b : Nat × ℚ, ps.Pairwise (fun p q => p.1 < q.1) → (∀ p ∈ ps, b.1 < p.1) →
      (bestPair b ps = b ∨ bestPair b ps ∈ ps) ∧
      b.2 ≤ (bestPair b ps).2 ∧
      (∀ p ∈ ps, p.2 ≤ (bestPair b ps).2) ∧
      (∀ p ∈ ps, p.2 = (bestPair b ps).2 → (bestPair b ps).1 ≤ p.1) ∧
      ((bestPair b ps).2 = b.2 → bestPair b ps = b) := by
  induction ps with
  | nil =>
    intro b _ _
    exact ⟨Or.inl rfl, le_refl _, by simp, by simp, fun _ => rfl⟩
  | cons p ps ih =>
    intro b hpw hb
    have hpw' : ps.Pairwise (fun p q => p.1 < q.1) := (List.pairwise_cons.mp hpw).2
    have hp_lt : ∀ q ∈ ps, p.1 < q.1 := (List.pairwise_cons.mp hpw).1
    have hbp : b.1 < p.1 := hb p (List.mem_cons_self p ps)
    have hrw : bestPair b (p :: ps) = bestPair (bestStep b p) ps := rfl
    by_cases h : b.2 < p.2
    · have hbs : bestStep b p = p := by unfold bestStep; rw [if_pos h]
      rw [hrw, hbs]
      obtain ⟨hm, hle, hall, hties, htb⟩ := ih p hpw' hp_lt
      refine ⟨?_, ?_, ?_, ?_, ?_⟩
      · rcases hm with hm | hm
        · exact Or.inr (by rw [hm]; exact List.mem_cons_self p ps)
        · exact Or.inr (List.mem_cons_of_mem _ hm)
      · exact le_of_lt (lt_of_lt_of_le h hle)
      · intro q hq
        rcases List.mem_cons.mp hq with hq | hq
        · rw [hq]; exact hle
        · exact hall q hq
      · intro q hq hqs
        rcases List.mem_cons.mp hq with hq | hq
        · have hq2 : q.2 = p.2 := by rw [hq]
          have hrp : bestPair p ps = p := htb (hqs.symm.trans hq2)
          rw [hrp, hq]
        · exact hties q hq hqs
      · intro habs
        exfalso
        have hlt2 : b.2 < (bestPair p ps).2 := lt_of_lt_of_le h hle
        rw [habs] at hlt2
        exact lt_irrefl _ hlt2
    · have hbs : bestStep b p = b := by unfold bestStep; rw [if_neg h]
      rw [hrw, hbs]
      have hb' : ∀ q ∈ ps, b.1 < q.1 := fun q hq => hb q (List.mem_cons_of_mem _ hq)
      obtain ⟨hm, hle, hall, hties, htb⟩ := ih b hpw' hb'
      refine ⟨?_, hle, ?_, ?_, htb⟩
      · rcases hm with hm | hm
        · exact Or.inl hm
        · exact Or.inr (List.mem_cons_of_mem _ hm)
      · intro q hq
        rcases List.mem_cons.mp hq with hq | hq
        · rw [hq]; exact le_trans (not_lt.mp h) hle
        · exact hall q hq
      · intro q hq hqs
        rcases List.mem_cons.mp hq with hq | hq
        · subst hq
          have hqb : q.2 ≤ b.2 := not_lt.mp h
          have h1 : (bestPair b ps).2 ≤ b.2 := by rw [← hqs]; exact hqb
          have hr2 : (bestPair b ps).2 = b.2 := le_antisymm h1 hle
          rw [htb hr2]
          exact le_of_lt hbp
        · exact hties q hq hqs

/-- Every interval index below `numIntervals` starts inside the score
sequence. -/
lemma interval_start_lt (n fi i : Nat) (hfi : 0 < fi)
    (hi : i < numIntervals n fi) : i * fi < n := by
  unfold numIntervals at hi
  by_cases hn : n = 0
  · rw [if_pos hn] at hi; omega
  · rw [if_neg hn] at hi
    have h1 : i ≤ (n - 1) / fi := by omega
    have h2 : i * fi ≤ n - 1 := (Nat.le_div_iff_mul_le hfi).mp h1
    omega

/-- The chunk of an interval below `numIntervals` is nonempty, with its
first frame at `i * fi`. -/
lemma chunkPairs_cons (scores : List ℚ) (fi i : Nat) (hfi : 0 < fi)
    (hi : i < numIntervals scores.length fi) :
    chunkPairs scores fi i =
      (i * fi, scores.getD (i * fi) 0) ::
        (List.range' (i * fi + 1) (min ((i + 1) * fi) scores.length - i * fi - 1)).map
          (fun k => (k, scores.getD k 0)) := by
  have hab : (i + 1) * fi = i * fi + fi := by ring
  have hstart := interval_start_lt scores.length fi i hfi hi
  obtain ⟨m, hm⟩ : ∃ m, min ((i + 1) * fi) scores.length - i * fi = m + 1 :=
    ⟨min ((i + 1) * fi) scores.length - i * fi - 1, by omega⟩
  unfold chunkPairs
  rw [hm, List.range'_succ, List.map_cons, Nat.add_sub_cancel]

/-- Characterisation of one interval's cell after the scan: it holds the
first maximal frame of the interval's chunk. -/
lemma scanBest_cell_spec (scores : List ℚ) (fi : Nat) (hfi : 0 < fi) (i : Nat)
    (hi : i < numIntervals scores.length fi) :
    ∃ k s, (scanBest scores fi).getD i initCell = (k, some s) ∧
      i * fi ≤ k ∧ k < min ((i + 1) * fi) scores.length ∧
      scores.getD k 0 = s ∧
      (∀ j, i * fi ≤ j → j < min ((i + 1) * fi) scores.length →
        scores.getD j 0 ≤ s ∧ (scores.getD j 0 = s → k ≤ j)) := by
  have hab : (i + 1) * fi = i * fi + fi := by ring
  have hstart := interval_start_lt scores.length fi i hfi hi
  rw [scanBest_getD scores fi i hi, enum_filter_eq_chunk scores fi i hfi,
    chunkPairs_cons scores fi i hfi hi]
  set p0 : Nat × ℚ := (i * fi, scores.getD (i * fi) 0) with hp0
  set rest := (List.range' (i * fi + 1)
      (min ((i + 1) * fi) scores.length - i * fi - 1)).map
      (fun k => (k, scores.getD k 0)) with hrest
  have hfold : chunkFold initCell (p0 :: rest) =
      ((bestPair p0 rest).1, some (bestPair p0 rest).2) := by
    have h1 : chunkFold initCell (p0 :: rest) = chunkFold (p0.1, some p0.2) rest := rfl
    rw [h1, chunkFold_some rest p0]
  rw [hfold]
  have hpw : rest.Pairwise (fun p q => p.1 < q.1) := by
    rw [hrest]
    refine List.pairwise_map.mpr ?_
    refine List.Pairwise.imp ?_ (List.pairwise_lt_range' _ _ 1 (by omega))
    intro a b h
    exact h
  have hb0 : ∀ q ∈ rest, p0.1 < q.1 := by
    intro q hq
    rw [hrest] at hq
    obtain ⟨kq, hkq, hq'⟩ := List.mem_map.mp hq
    have hkb := List.mem_range'_1.mp hkq
    rw [← hq']
    show i * fi < kq
    omega
  obtain ⟨hmem, hle0, hall, hties, htb⟩ := bestPair_spec rest p0 hpw hb0
  refine ⟨(bestPair p0 rest).1, (bestPair p0 rest).2, rfl, ?_, ?_, ?_, ?_⟩
  · rcases hmem with hm | hm
    · rw [hm]
    · rw [hrest] at hm
      obtain ⟨kq, hkq, hq'⟩ := List.mem_map.mp hm
      have hkb := List.mem_range'_1.mp hkq
      rw [← hq']
      show i * fi ≤ kq
      omega
  · rcases hmem with hm | hm
    · rw [hm]
      show i * fi < min ((i + 1) * fi) scores.length
      omega
    · rw [hrest] at hm
      obtain ⟨kq, hkq, hq'⟩ := List.mem_map.mp hm
      have hkb := List.mem_range'_1.mp hkq
      rw [← hq']
      show kq < min ((i + 1) * fi) scores.length
      omega
  · rcases hmem with hm | hm
    · rw [hm]
    · rw [hrest] at hm
      obtain ⟨kq, hkq, hq'⟩ := List.mem_map.mp hm
      rw [← hq']
  · intro j hj1 hj2
    by_cases hj0 : j = i * fi
    · subst hj0
      constructor
      · exact hle0
      · intro hts
        have htie : (bestPair p0 rest).2 = p0.2 := by rw [← hts]
        rw [htb htie]
    · have hjmem : ((j, scores.getD j 0) : Nat × ℚ) ∈ rest := by
        rw [hrest]
        refine List.mem_map.mpr ⟨j, ?_, rfl⟩
        refine List.mem_range'_1.mpr ⟨by omega, by omega⟩
      constructor
      · exact hall _ hjmem
      · intro hts
        exact hties _ hjmem hts

/-- The triples are already sorted by frame index before the stable
argsort, which is therefore the identity on them. -/
lemma selectCore_eq_pre (scores : List ℚ) (fi : Nat) (hfi : 0 < fi)
    (hn : scores.length ≠ 0) :
    selectCore scores fi = (List.range (numIntervals scores.length fi)).map
      (fun i => (i, ((scanBest scores fi).getD i initCell).1,
        (((scanBest scores fi).getD i initCell).2).getD 0)) := by
  unfold selectCore
  rw [if_neg hn]
  show List.insertionSort tripleKeyLE _ = _
  apply List.Sorted.insertionSort_eq
  show List.Pairwise tripleKeyLE _
  refine List.pairwise_map.mpr ?_
  refine List.Pairwise.imp_of_mem ?_ (List.pairwise_lt_range _)
  intro a b ha hb hlt
  have ha' : a < numIntervals scores.length fi := List.mem_range.mp ha
  have hb' : b < numIntervals scores.length fi := List.mem_range.mp hb
  obtain ⟨ka, sa, hcella, hka1, hka2, _, _⟩ := scanBest_cell_spec scores fi hfi a ha'
  obtain ⟨kb, sb, hcellb, hkb1, hkb2, _, _⟩ := scanBest_cell_spec scores fi hfi b hb'
  show ((scanBest scores fi).getD a initCell).1 ≤ ((scanBest scores fi).getD b initCell).1
  rw [hcella, hcellb]
  show ka ≤ kb
  have h1 : ka < (a + 1) * fi := lt_of_lt_of_le hka2 (min_le_left _ _)
  have h2 : (a + 1) * fi ≤ b * fi := Nat.mul_le_mul_right fi (by omega)
  omega

/-- C2: for every `frame_interval >= 1` and score sequence, the
reduction succeeds and returns exactly
`ceil(total_frame_count / frame_interval)` selected frames. -/
theorem select_count_eq_ceil (scores : List ℚ) (fi : Nat) (hfi : 1 ≤ fi) :
    ∃ out, selectBestFramesPerInterval scores fi = some out ∧
      out.length = (scores.length + fi - 1) / fi := by
  have hfi0 : fi ≠ 0 := by omega
  refine ⟨selectCore scores fi,
    by unfold selectBestFramesPerInterval; rw [if_neg hfi0], ?_⟩
  by_cases hn : scores.length = 0
  · unfold selectCore
    rw [if_pos hn, hn]
    show 0 = (0 + fi - 1) / fi
    rw [Nat.zero_add]
    exact (Nat.div_eq_of_lt (by omega)).symm
  · rw [selectCore_eq_pre scores fi (by omega) hn, List.length_map, List.length_range]
    unfold numIntervals
    rw [if_neg hn]
    have hsplit : scores.length + fi - 1 = (scores.length - 1) + fi := by omega
    rw [hsplit, Nat.add_div_right _ (by omega)]

/-- Witness for C2: seven scores with interval 3 yield
`ceil(7/3) = 3` selected frames (the spec scenario of §8). -/
theorem select_count_eq_ceil_witness :
    1 ≤ 3 ∧
    (∃ out, selectBestFramesPerInterval ([1, 5, 2, 4, 3, 6, 0] : List ℚ) 3 = some out ∧
      out.length = (([1, 5, 2, 4, 3, 6, 0] : List ℚ).length + 3 - 1) / 3) :=
  ⟨by norm_num, select_count_eq_ceil [1, 5, 2, 4, 3, 6, 0] 3 (by norm_num)⟩

/-- C3: every interval's selected triple carries that interval's index, a
frame inside the interval, that frame's score, which every score of the
interval is bounded by; on ties the least frame index of the interval is
selected (the running best is replaced only on strict `>`). -/
theorem select_best_frame_per_chunk (scores : List ℚ) (fi : Nat) (hfi : 1 ≤ fi)
    (i : Nat) (hi : i < numIntervals scores.length fi) :
    ∃ out k s, selectBestFramesPerInterval scores fi = some out ∧
      out.getD i (0, 0, 0) = (i, k, s) ∧
      i * fi ≤ k ∧ k < min ((i + 1) * fi) scores.length ∧
      scores.getD k 0 = s ∧
      (∀ j, i * fi ≤ j → j < min ((i + 1) * fi) scores.length →
        scores.getD j 0 ≤ s ∧ (scores.getD j 0 = s → k ≤ j)) := by
  have hfi0 : 0 < fi := by omega
  have hn : scores.length ≠ 0 := by
    intro h0
    unfold numIntervals at hi
    rw [if_pos h0] at hi
    omega
  obtain ⟨k, s, hcell, hk1, hk2, hks, hdom⟩ := scanBest_cell_spec scores fi hfi0 i hi
  refine ⟨selectCore scores fi, k, s,
    by unfold selectBestFramesPerInterval; rw [if_neg (by omega)],
    ?_, hk1, hk2, hks, hdom⟩
  rw [selectCore_eq_pre scores fi hfi0 hn, getD_map_range _ hi _, hcell]
  rfl

/-- Witness for C3 on scores `[1, 5, 5, 2]` with interval 2: interval 0
selects the first of the two tied scores 5. -/
theorem select_best_frame_per_chunk_witness :
    1 ≤ 2 ∧ 0 < numIntervals ([1, 5, 5, 2] : List ℚ).length 2 ∧
    (∃ out k s, selectBestFramesPerInterval ([1, 5, 5, 2] : List ℚ) 2 = some out ∧
      out.getD 0 (0, 0, 0) = (0, k, s) ∧
      0 * 2 ≤ k ∧ k < min ((0 + 1) * 2) ([1, 5, 5, 2] : List ℚ).length ∧
      ([1, 5, 5, 2] : List ℚ).getD k 0 = s ∧
      (∀ j, 0 * 2 ≤ j → j < min ((0 + 1) * 2) ([1, 5, 5, 2] : List ℚ).length →
        ([1, 5, 5, 2] : List ℚ).getD j 0 ≤ s ∧
          (([1, 5, 5, 2] : List ℚ).getD j 0 = s → k ≤ j))) := by
  refine ⟨by norm_num, by decide, ?_⟩
  exact select_best_frame_per_chunk [1, 5, 5, 2] 2 (by norm_num) 0 (by decide)

/-- Counterexample for C6: with the buffer full and nothing drained, one
more append of a chunk smaller than the capacity silently overwrites the
oldest undrained sample: 10 is retrievable before the append and gone
after it.  The ring is overwrite-oldest, not drain-on-full. -/
theorem rolling_append_overwrites_undrained :
    RollingBuffer.new Nat 2 = some (RollingBuffer.fresh Nat 2) ∧
    rbDemo.is_buffer_full = true ∧
    ([12] : List Nat).length < rbDemo.capacity ∧
    rbDemo.get_last_samples none = [10, 11] ∧
    (rbDemo.append [12]).get_last_samples none = [11, 12] := by
  decide

lemma lastN_eq_self {α : Type} {l : List α} {m : Nat} (h : l.length ≤ m) :
    lastN m l = l := by
  unfold lastN
  rw [Nat.sub_eq_zero_of_le h, List.drop_zero]

lemma lastN_length {α : Type} (m : Nat) (l : List α) :
    (lastN m l).length = min m l.length := by
  unfold lastN
  rw [List.length_drop]
  omega

lemma RollingBuffer.contents_mk {α : Type} (cap : Nat) (B : List α) (wp : Nat)
    (f : Bool) (t : Nat) :
    (RollingBuffer.mk cap B wp f t).contents =
      if f then B.drop wp ++ B.take wp else B.take wp := rfl

lemma RollingBuffer.contents_length {α : Type} (st : RollingBuffer α) (hwf : st.WF) :
    st.contents.length = st.size := by
  obtain ⟨hbl, hwp, hcap⟩ := hwf
  unfold RollingBuffer.contents RollingBuffer.size
  by_cases hf : st.is_buffer_full = true
  · rw [if_pos hf, if_pos hf, List.length_append, List.length_drop, List.length_take]
    omega
  · rw [if_neg hf, if_neg hf, List.length_take]
    omega

lemma RollingBuffer.size_le {α : Type} (st : RollingBuffer α) (hwf : st.WF) :
    st.size ≤ st.capacity := by
  obtain ⟨_, hwp, _⟩ := hwf
  unfold RollingBuffer.size
  by_cases hf : st.is_buffer_full = true
  · rw [if_pos hf]
  · rw [if_neg hf]; omega

lemma RollingBuffer.fresh_wf (α : Type) [Inhabited α] {cap : Nat} (hcap : 0 < cap) :
    (RollingBuffer.fresh α cap).WF :=
  ⟨List.length_replicate cap default, hcap, hcap⟩

/-- Effect of one `append` on the chronological contents: the buffer
always retains exactly the last `capacity` samples of the extended
history (overwrite-oldest). -/
lemma RollingBuffer.append_spec {α : Type} (st : RollingBuffer α) (chunk : List α)
    (hwf : st.WF) :
    (st.append chunk).WF ∧ (st.append chunk).capacity = st.capacity ∧
      (st.append chunk).contents = lastN st.capacity (st.contents ++ chunk) := by
  obtain ⟨hbl, hwp, hcap⟩ := hwf
  have hclen := st.contents_length ⟨hbl, hwp, hcap⟩
  have hsz : st.size ≤ st.capacity := st.size_le ⟨hbl, hwp, hcap⟩
  unfold RollingBuffer.append
  by_cases h0 : chunk.length = 0
  · rw [if_pos h0]
    have hnil : chunk = [] := List.length_eq_zero.mp h0
    subst hnil
    refine ⟨⟨hbl, hwp, hcap⟩, rfl, ?_⟩
    rw [List.append_nil]
    exact (lastN_eq_self (by omega)).symm
  rw [if_neg h0]
  by_cases h1 : st.capacity ≤ chunk.length
  · rw [if_pos h1]
    refine ⟨⟨?_, hcap, hcap⟩, rfl, ?_⟩
    · show (chunk.drop (chunk.length - st.capacity)).length = st.capacity
      rw [List.length_drop]
      omega
    · rw [RollingBuffer.contents_mk, if_pos rfl, List.drop_zero, List.take_zero,
        List.append_nil]
      unfold lastN
      have hd1 : st.contents.drop (st.contents.length + chunk.length - st.capacity) =
          [] := List.drop_eq_nil_of_le (by omega)
      rw [List.length_append, List.drop_append_eq_append_drop, hd1, List.nil_append]
      congr 1
      omega
  rw [if_neg h1]
  by_cases hB : st.write_position + chunk.length ≤ st.capacity
  · -- non-wrapping write
    rw [if_pos hB]
    have hlen12 : (st.buffer.take st.write_position ++ chunk).length =
        st.write_position + chunk.length := by
      rw [List.length_append, List.length_take]
      omega
    have hB1len : (st.buffer.take st.write_position ++ chunk ++
        st.buffer.drop (st.write_position + chunk.length)).length = st.capacity := by
      rw [List.length_append, hlen12, List.length_drop]
      omega
    refine ⟨⟨hB1len, Nat.mod_lt _ hcap, hcap⟩, rfl, ?_⟩
    rw [RollingBuffer.contents_mk]
    have htk : (st.buffer.take st.write_position ++ chunk ++
        st.buffer.drop (st.write_position + chunk.length)).take
          (st.write_position + chunk.length) =
        st.buffer.take st.write_position ++ chunk := List.take_left' hlen12
    have hdr : (st.buffer.take st.write_position ++ chunk ++
        st.buffer.drop (st.write_position + chunk.length)).drop
          (st.write_position + chunk.length) =
        st.buffer.drop (st.write_position + chunk.length) := List.drop_left' hlen12
    by_cases hf : st.is_buffer_full = true
    · -- was already full: stays full, oldest samples are overwritten
      have hc : st.contents =
          st.buffer.drop st.write_position ++ st.buffer.take st.write_position := by
        unfold RollingBuffer.contents
        rw [if_pos hf]
      have hsize_full : st.size = st.capacity := by
        unfold RollingBuffer.size
        rw [if_pos hf]
      have hfull' : (st.is_buffer_full ||
          decide (st.capacity ≤ st.write_position + chunk.length)) = true := by
        rw [hf, Bool.true_or]
      rw [hfull', if_pos rfl]
      have hRHS : lastN st.capacity (st.contents ++ chunk) =
          (st.buffer.drop (st.write_position + chunk.length) ++
            st.buffer.take st.write_position) ++ chunk := by
        unfold lastN
        have hlc : (st.contents ++ chunk).length = st.capacity + chunk.length := by
          rw [List.length_append, hclen, hsize_full]
        have hlen_dw : (st.buffer.drop st.write_position ++
            st.buffer.take st.write_position).length = st.capacity := by
          rw [List.length_append, List.length_drop, List.length_take]
          omega
        rw [hlc, hc, Nat.add_sub_cancel_left, List.drop_append_eq_append_drop,
          hlen_dw]
        have h2 : chunk.length - st.capacity = 0 := by omega
        rw [h2, List.drop_zero, List.drop_append_eq_append_drop, List.length_drop,
          hbl, List.drop_drop]
        have h3 : chunk.length - (st.capacity - st.write_position) = 0 := by omega
        rw [h3, List.drop_zero]
      rw [hRHS]
      by_cases hec : st.write_position + chunk.length = st.capacity
      · -- the write exactly fills the ring: the cursor wraps to 0
        have hmod : (st.write_position + chunk.length) % st.capacity = 0 := by
          rw [hec, Nat.mod_self]
        rw [hmod, List.drop_zero, List.take_zero, List.append_nil]
        have hdropnil : st.buffer.drop (st.write_position + chunk.length) = [] :=
          List.drop_eq_nil_of_le (by omega)
        rw [hdropnil, List.nil_append, List.append_nil]
      · have hmod : (st.write_position + chunk.length) % st.capacity =
            st.write_position + chunk.length := Nat.mod_eq_of_lt (by omega)
        rw [hmod, htk, hdr, List.append_assoc]
    · -- was not yet full
      have hc : st.contents = st.buffer.take st.write_position := by
        unfold RollingBuffer.contents
        rw [if_neg hf]
      have hfb : st.is_buffer_full = false := by
        revert hf
        cases st.is_buffer_full <;> simp
      have hRHS : lastN st.capacity (st.contents ++ chunk) =
          st.buffer.take st.write_position ++ chunk := by
        rw [hc]
        refine lastN_eq_self ?_
        rw [List.length_append, List.length_take]
        omega
      rw [hRHS]
      by_cases hec : st.write_position + chunk.length = st.capacity
      · have hmod : (st.write_position + chunk.length) % st.capacity = 0 := by
          rw [hec, Nat.mod_self]
        have hfull' : (st.is_buffer_full ||
            decide (st.capacity ≤ st.write_position + chunk.length)) = true := by
          rw [hfb, Bool.false_or]
          exact decide_eq_true (by omega)
        rw [hfull', if_pos rfl, hmod, List.drop_zero, List.take_zero,
          List.append_nil]
        have hdropnil : st.buffer.drop (st.write_position + chunk.length) = [] :=
          List.drop_eq_nil_of_le (by omega)
        rw [hdropnil, List.append_nil]
      · have hfull' : (st.is_buffer_full ||
            decide (st.capacity ≤ st.write_position + chunk.length)) = false := by
          rw [hfb, Bool.false_or]
          exact decide_eq_false (by omega)
        rw [hfull', if_neg Bool.false_ne_true]
        have hmod : (st.write_position + chunk.length) % st.capacity =
            st.write_position + chunk.length := Nat.mod_eq_of_lt (by omega)
        rw [hmod, htk]
  · -- wrapping write
    rw [if_neg hB]
    have htail_le : st.capacity - st.write_position ≤ chunk.length := by omega
    have hlen_a : (chunk.drop (st.capacity - st.write_position)).length =
        st.write_position + chunk.length - st.capacity := by
      rw [List.length_drop]
      omega
    have hlen_b : ((st.buffer.take st.write_position).drop
        (st.write_position + chunk.length - st.capacity)).length =
        st.capacity - chunk.length := by
      rw [List.length_drop, List.length_take]
      omega
    have hlen_ab : (chunk.drop (st.capacity - st.write_position) ++
        (st.buffer.take st.write_position).drop
          (st.write_position + chunk.length - st.capacity)).length =
        st.write_position := by
      rw [List.length_append, hlen_a, hlen_b]
      omega
    have hB2len : (chunk.drop (st.capacity - st.write_position) ++
        (st.buffer.take st.write_position).drop
          (st.write_position + chunk.length - st.capacity) ++
        chunk.take (st.capacity - st.write_position)).length = st.capacity := by
      rw [List.length_append, hlen_ab, List.length_take]
      omega
    have hmod : (st.write_position + chunk.length) % st.capacity =
        st.write_position + chunk.length - st.capacity := by
      rw [Nat.mod_eq_sub_mod (by omega)]
      exact Nat.mod_eq_of_lt (by omega)
    have hfull' : (st.is_buffer_full ||
        decide (st.capacity ≤ st.write_position + chunk.length)) = true := by
      rw [decide_eq_true (by omega), Bool.or_true]
    refine ⟨⟨hB2len, ?_, hcap⟩, rfl, ?_⟩
    · show (st.write_position + chunk.length) % st.capacity < st.capacity
      exact Nat.mod_lt _ hcap
    rw [RollingBuffer.contents_mk, hfull', if_pos rfl, hmod]
    -- the physical buffer is (a ++ b) ++ c with |a| = e - cap
    rw [List.append_assoc]
    have htk2 : (chunk.drop (st.capacity - st.write_position) ++
        ((st.buffer.take st.write_position).drop
          (st.write_position + chunk.length - st.capacity) ++
        chunk.take (st.capacity - st.write_position))).take
          (st.write_position + chunk.length - st.capacity) =
        chunk.drop (st.capacity - st.write_position) := List.take_left' hlen_a
    have hdr2 : (chunk.drop (st.capacity - st.write_position) ++
        ((st.buffer.take st.write_position).drop
          (st.write_position + chunk.length - st.capacity) ++
        chunk.take (st.capacity - st.write_position))).drop
          (st.write_position + chunk.length - st.capacity) =
        (st.buffer.take st.write_position).drop
          (st.write_position + chunk.length - st.capacity) ++
        chunk.take (st.capacity - st.write_position) := List.drop_left' hlen_a
    rw [htk2, hdr2]
    have hRHS : lastN st.capacity (st.contents ++ chunk) =
        (st.buffer.take st.write_position).drop
          (st.write_position + chunk.length - st.capacity) ++ chunk := by
      by_cases hf : st.is_buffer_full = true
      · have hc : st.contents =
            st.buffer.drop st.write_position ++ st.buffer.take st.write_position := by
          unfold RollingBuffer.contents
          rw [if_pos hf]
        have hsize_full : st.size = st.capacity := by
          unfold RollingBuffer.size
          rw [if_pos hf]
        unfold lastN
        have hlc : (st.contents ++ chunk).length = st.capacity + chunk.length := by
          rw [List.length_append, hclen, hsize_full]
        have hlen_dw : (st.buffer.drop st.write_position ++
            st.buffer.take st.write_position).length = st.capacity := by
          rw [List.length_append, List.length_drop, List.length_take]
          omega
        rw [hlc, hc, Nat.add_sub_cancel_left, List.drop_append_eq_append_drop,
          hlen_dw]
        have h2 : chunk.length - st.capacity = 0 := by omega
        rw [h2, List.drop_zero, List.drop_append_eq_append_drop, List.length_drop,
          hbl]
        have hnil : (st.buffer.drop st.write_position).drop chunk.length = [] := by
          refine List.drop_eq_nil_of_le ?_
          rw [List.length_drop]
          omega
        rw [hnil, List.nil_append]
        congr 2
        omega
      · have hc : st.contents = st.buffer.take st.write_position := by
          unfold RollingBuffer.contents
          rw [if_neg hf]
        have hsize_nf : st.size = st.write_position := by
          unfold RollingBuffer.size
          rw [if_neg hf]
        unfold lastN
        have hlc : (st.contents ++ chunk).length =
            st.write_position + chunk.length := by
          rw [List.length_append, hclen, hsize_nf]
        rw [hlc, hc, List.drop_append_eq_append_drop, List.length_take]
        have h2 : st.write_position + chunk.length - st.capacity -
            min st.write_position st.buffer.length = 0 := by omega
        rw [h2, List.drop_zero]
    rw [hRHS]
    -- (b ++ c) ++ a = b ++ (c ++ a) = b ++ chunk
    rw [List.append_assoc, List.take_append_drop]

lemma pyClampIndex_natCast (s total : Nat) (h : s ≤ total) :
    pyClampIndex (s : Int) total = s := by
  unfold pyClampIndex
  rw [if_neg (by omega), min_eq_left (by exact_mod_cast h),
    max_eq_right (Int.natCast_nonneg s)]
  exact Int.toNat_natCast s

lemma lastN_append_absorb {α : Type} (m : Nat) (l1 l2 : List α) :
    lastN m (lastN m l1 ++ l2) = lastN m (l1 ++ l2) := by
  unfold lastN
  rw [List.length_append, List.length_append, List.length_drop,
    List.drop_append_eq_append_drop, List.drop_append_eq_append_drop,
    List.drop_drop, List.length_drop]
  have h1 : l1.length - m + (l1.length - (l1.length - m) + l2.length - m) =
      l1.length + l2.length - m := by omega
  have h2 : l1.length - (l1.length - m) + l2.length - m -
      (l1.length - (l1.length - m)) = l1.length + l2.length - m - l1.length := by
    omega
  rw [h1, h2]

lemma lastN_lastN {α : Type} (n m : Nat) (l : List α) :
    lastN n (lastN m l) = lastN (min n m) l := by
  unfold lastN
  rw [List.length_drop, List.drop_drop]
  congr 1
  omega

/-- Appending any sequence of chunks to a fresh (or any well-formed)
buffer retains exactly the last `capacity` samples of the appended
history, in chronological order — overwrite-oldest semantics. -/
lemma foldl_append_spec {α : Type} (chunks : List (List α)) :
    ∀ st : RollingBuffer α, st.WF →
      (chunks.foldl RollingBuffer.append st).WF ∧
      (chunks.foldl RollingBuffer.append st).capacity = st.capacity ∧
      (chunks.foldl RollingBuffer.append st).contents =
        lastN st.capacity (st.contents ++ chunks.flatten) := by
  induction chunks with
  | nil =>
    intro st hwf
    refine ⟨hwf, rfl, ?_⟩
    rw [List.flatten_nil, List.append_nil]
    refine (lastN_eq_self ?_).symm
    show st.contents.length ≤ st.capacity
    rw [st.contents_length hwf]
    exact st.size_le hwf
  | cons c cs ih =>
    intro st hwf
    obtain ⟨hwf1, hcap1, hc1⟩ := st.append_spec c hwf
    obtain ⟨hwf2, hcap2, hc2⟩ := ih (st.append c) hwf1
    refine ⟨hwf2, ?_, ?_⟩
    · show (cs.foldl RollingBuffer.append (st.append c)).capacity = st.capacity
      rw [hcap2, hcap1]
    · show (cs.foldl RollingBuffer.append (st.append c)).contents = _
      rw [List.flatten_cons, hc2, hcap1, hc1, lastN_append_absorb,
        List.append_assoc]

/-- Correctness of `slice` on in-range natural bounds: it returns the
chronological contents restricted to `[start, stop)`, whether or not the
physical window wraps. -/
lemma RollingBuffer.slice_spec {α : Type} (st : RollingBuffer α) (hwf : st.WF)
    (s e : Nat) (hse : s ≤ e) (he : e ≤ st.size) :
    st.slice (some (s : Int)) (some (e : Int)) = (st.contents.take e).drop s := by
  obtain ⟨hbl, hwp, hcap⟩ := hwf
  have hclen := st.contents_length ⟨hbl, hwp, hcap⟩
  have hsz := st.size_le ⟨hbl, hwp, hcap⟩
  unfold RollingBuffer.slice
  by_cases h0 : st.size = 0
  · rw [if_pos h0]
    have he0 : e = 0 := by omega
    subst he0
    rw [List.take_zero, List.drop_nil]
  · rw [if_neg h0]
    have hsc : pyClampIndex ((some (s : Int)).getD 0) st.size = s := by
      rw [Option.getD_some]
      exact pyClampIndex_natCast s st.size (by omega)
    have hec : pyClampIndex ((some (e : Int)).getD (st.size : Int)) st.size = e := by
      rw [Option.getD_some]
      exact pyClampIndex_natCast e st.size he
    rw [hsc, hec]
    by_cases hes : e ≤ s
    · rw [if_pos hes]
      refine (List.drop_eq_nil_of_le ?_).symm
      rw [List.length_take]
      omega
    · rw [if_neg hes]
      by_cases hf : st.is_buffer_full = false
      · -- data occupies the prefix [0, write_position)
        rw [if_pos hf]
        have hc : st.contents = st.buffer.take st.write_position := by
          unfold RollingBuffer.contents
          rw [if_neg (by rw [hf]; exact Bool.false_ne_true)]
        have hsize_nf : st.size = st.write_position := by
          unfold RollingBuffer.size
          rw [if_neg (by rw [hf]; exact Bool.false_ne_true)]
        rw [hc, List.take_take, min_eq_left (by omega)]
      · -- full ring: data wraps at the write cursor
        rw [if_neg hf]
        have hft : st.is_buffer_full = true := by
          revert hf
          cases st.is_buffer_full <;> simp
        have hc : st.contents =
            st.buffer.drop st.write_position ++ st.buffer.take st.write_position := by
          unfold RollingBuffer.contents
          rw [if_pos hft]
        have hsize_full : st.size = st.capacity := by
          unfold RollingBuffer.size
          rw [if_pos hft]
        by_cases hps : st.write_position + s < st.capacity
        · have hmod : (st.write_position + s) % st.capacity =
              st.write_position + s := Nat.mod_eq_of_lt hps
          rw [hmod]
          by_cases hcnt : e - s ≤ st.capacity - (st.write_position + s)
          · -- requested window does not cross the physical end
            rw [if_pos hcnt, hc, List.take_append_eq_append_take, List.length_drop,
              hbl]
            have h4 : e - (st.capacity - st.write_position) = 0 := by omega
            rw [h4, List.take_zero, List.append_nil, List.drop_take,
              List.drop_drop]
          · -- requested window crosses the physical end
            rw [if_neg hcnt, hc]
            have hdlen : (st.buffer.drop st.write_position).length =
                st.capacity - st.write_position := by
              rw [List.length_drop, hbl]
            have h1 : (st.buffer.drop st.write_position ++
                st.buffer.take st.write_position).take e =
                st.buffer.drop st.write_position ++
                  (st.buffer.take st.write_position).take
                    (e - (st.capacity - st.write_position)) := by
              rw [List.take_append_eq_append_take, hdlen,
                List.take_of_length_le (le_of_eq_of_le hdlen (by omega))]
            rw [h1, List.drop_append_eq_append_drop, hdlen, List.drop_drop]
            have h5 : s - (st.capacity - st.write_position) = 0 := by omega
            rw [h5, List.drop_zero, List.take_take, min_eq_left (by omega)]
            congr 2
            omega
        · -- the physical start itself wraps
          have hmod : (st.write_position + s) % st.capacity =
              st.write_position + s - st.capacity := by
            rw [Nat.mod_eq_sub_mod (by omega)]
            exact Nat.mod_eq_of_lt (by omega)
          rw [hmod, if_pos (by omega), hc]
          have hdlen : (st.buffer.drop st.write_position).length =
              st.capacity - st.write_position := by
            rw [List.length_drop, hbl]
          have h1 : (st.buffer.drop st.write_position ++
              st.buffer.take st.write_position).take e =
              st.buffer.drop st.write_position ++
                (st.buffer.take st.write_position).take
                  (e - (st.capacity - st.write_position)) := by
            rw [List.take_append_eq_append_take, hdlen,
              List.take_of_length_le (le_of_eq_of_le hdlen (by omega))]
          rw [h1, List.drop_append_eq_append_drop, hdlen,
            List.drop_eq_nil_of_le (le_of_eq_of_le hdlen (by omega)),
            List.nil_append, List.drop_take, List.drop_take, List.take_take]
          have h6 : e - (st.capacity - st.write_position) -
              (s - (st.capacity - st.write_position)) = e - s := by omega
          have h7 : min (e - s)
              (st.write_position - (s - (st.capacity - st.write_position))) =
              e - s := by omega
          rw [h6, h7]
          congr 2
          omega

/-- The `n = None` call retrieves the whole chronological contents. -/
lemma RollingBuffer.get_last_samples_none {α : Type} (st : RollingBuffer α)
    (hwf : st.WF) : st.get_last_samples none = st.contents := by
  have h1 : st.get_last_samples none =
      st.slice (some ((0 : Nat) : Int)) (some ((st.size : Nat) : Int)) := rfl
  rw [h1, st.slice_spec hwf 0 st.size (Nat.zero_le _) (Nat.le_refl _),
    List.drop_zero, List.take_of_length_le (by rw [st.contents_length hwf])]

/-- C6 (amended): the ring is overwrite-oldest.  After any sequence of
appends to a fresh buffer of capacity `cap`, the retained samples are
exactly the last `min(total_written, cap)` appended samples in
chronological order; an append made once the buffer is full overwrites
the oldest samples instead of blocking or requiring a drain first. -/
theorem rolling_buffer_retains_last_capacity (α : Type) [Inhabited α] (cap : Nat)
    (st₀ : RollingBuffer α) (hnew : RollingBuffer.new α cap = some st₀)
    (chunks : List (List α)) :
    (chunks.foldl RollingBuffer.append st₀).get_last_samples none =
      lastN cap chunks.flatten := by
  have hcap : 0 < cap ∧ st₀ = RollingBuffer.fresh α cap := by
    unfold RollingBuffer.new at hnew
    by_cases hc : cap = 0
    · rw [if_pos hc] at hnew
      exact absurd hnew (by simp)
    · rw [if_neg hc] at hnew
      exact ⟨by omega, (Option.some.inj hnew).symm⟩
  obtain ⟨hcap0, hst₀⟩ := hcap
  subst hst₀
  obtain ⟨hwf, hcapeq, hcont⟩ :=
    foldl_append_spec chunks (RollingBuffer.fresh α cap) (RollingBuffer.fresh_wf α hcap0)
  rw [RollingBuffer.get_last_samples_none _ hwf, hcont]
  rfl

/-- Witness for C6 (amended): capacity 3, appends `[1,2]` then `[3,4]`
(the second wraps): the buffer retains `[2, 3, 4]`. -/
theorem rolling_buffer_retains_last_capacity_witness :
    RollingBuffer.new Nat 3 = some (RollingBuffer.fresh Nat 3) ∧
    (([[1, 2], [3, 4]] : List (List Nat)).foldl RollingBuffer.append
        (RollingBuffer.fresh Nat 3)).get_last_samples none =
      lastN 3 ([[1, 2], [3, 4]] : List (List Nat)).flatten := by
  refine ⟨by decide, ?_⟩
  exact rolling_buffer_retains_last_capacity Nat 3 (RollingBuffer.fresh Nat 3)
    (by decide) [[1, 2], [3, 4]]

/-- C9: after any sequence of appends, `get_last_samples n` returns
exactly the last `n` appended samples in chronological order, for every
`n` not exceeding the retained count, including across a physical wrap. -/
theorem rolling_buffer_get_last_samples (α : Type) [Inhabited α] (cap : Nat)
    (st₀ : RollingBuffer α) (hnew : RollingBuffer.new α cap = some st₀)
    (chunks : List (List α)) (n : Nat)
    (hn : n ≤ (chunks.foldl RollingBuffer.append st₀).size) :
    (chunks.foldl RollingBuffer.append st₀).get_last_samples (some n) =
      lastN n chunks.flatten := by
  have hcap : 0 < cap ∧ st₀ = RollingBuffer.fresh α cap := by
    unfold RollingBuffer.new at hnew
    by_cases hc : cap = 0
    · rw [if_pos hc] at hnew
      exact absurd hnew (by simp)
    · rw [if_neg hc] at hnew
      exact ⟨by omega, (Option.some.inj hnew).symm⟩
  obtain ⟨hcap0, hst₀⟩ := hcap
  subst hst₀
  obtain ⟨hwf, hcapeq, hcont⟩ :=
    foldl_append_spec chunks (RollingBuffer.fresh α cap) (RollingBuffer.fresh_wf α hcap0)
  set st := chunks.foldl RollingBuffer.append (RollingBuffer.fresh α cap) with hst
  have hsle : st.size ≤ cap := by
    have hle := st.size_le hwf
    rw [hcapeq] at hle
    exact hle
  have hmin : min n st.size = n := by omega
  have h1 : st.get_last_samples (some n) =
      st.slice (some ((st.size - min n st.size : Nat) : Int))
        (some ((st.size : Nat) : Int)) := rfl
  have hclen2 := st.contents_length hwf
  rw [h1, hmin, st.slice_spec hwf (st.size - n) st.size (by omega) (Nat.le_refl _),
    List.take_of_length_le (by rw [hclen2])]
  have hgoal : st.contents.drop (st.size - n) = lastN n st.contents := by
    unfold lastN
    rw [hclen2]
  rw [hgoal, hcont]
  have hfc : (RollingBuffer.fresh α cap).contents = [] := rfl
  have hfcap : (RollingBuffer.fresh α cap).capacity = cap := rfl
  rw [hfc, List.nil_append, lastN_lastN, hfcap, min_eq_left (by omega)]

/-- Witness for C9: capacity 3, appends `[1,2]` then `[3,4]` (the second
write wraps the physical ring), `n = 3`: the result is `[2, 3, 4]`, the
last three appended samples in order. -/
theorem rolling_buffer_get_last_samples_witness :
    RollingBuffer.new Nat 3 = some (RollingBuffer.fresh Nat 3) ∧
    3 ≤ (([[1, 2], [3, 4]] : List (List Nat)).foldl RollingBuffer.append
        (RollingBuffer.fresh Nat 3)).size ∧
    (([[1, 2], [3, 4]] : List (List Nat)).foldl RollingBuffer.append
        (RollingBuffer.fresh Nat 3)).get_last_samples (some 3) =
      lastN 3 ([[1, 2], [3, 4]] : List (List Nat)).flatten := by
  refine ⟨by decide, by decide, ?_⟩
  exact rolling_buffer_get_last_samples Nat 3 (RollingBuffer.fresh Nat 3) (by decide)
    [[1, 2], [3, 4]] 3 (by decide)

end SFE
